import Mathlib

/-!
Verification development for the smog-trace-converter repository.

The definitions below are shallow embeddings of the C/C++ sources:
machine integers (`size_t`, `uint32_t`, `uint64_t`) are modelled as `Nat`
with explicit wraparound (`% 2^64`, `% 2^32`) at the places where the C
arithmetic can wrap, byte buffers are `List Nat` (each entry a byte value,
reads mask with `% 256`), and out-of-bounds reads, which are undefined
behaviour in the C sources, are modelled by `Option` (`none` marks a read
past the end of the buffer).
-/

namespace SmogTrace

/-- Width of the 64-bit machine words (`size_t`, `uint64_t`) used throughout
the sources. -/
def W : Nat := 2 ^ 64

/-- Wraparound of `n - 1` on `size_t` values (`n < W`): models C expressions
such as `vma_end - 1` and `ranges[j].lower - 1`, which wrap to `2^64 - 1`
when the operand is zero. -/
def predW (n : Nat) : Nat := if n = 0 then W - 1 else n - 1

/-- Address range with inclusive bounds, after `struct range` in
src/backends/png.c and the `range` class in src/backends/histogram.cpp and
src/backends/png-frames.cpp. -/
structure SRange where
  lower : Nat
  upper : Nat
deriving Repr, DecidableEq

/-- Embeds `range_intersects` from src/backends/png.c (identical to
`range::intersects` in the C++ backends). -/
def range_intersects (a b : SRange) : Bool :=
  decide (a.lower ≤ b.upper) && decide (b.lower ≤ a.upper)

/-- Embeds `range_extend` from src/backends/png.c (identical to
`range::operator|=` in the C++ backends). -/
def range_extend (a b : SRange) : SRange :=
  ⟨min a.lower b.lower, max a.upper b.upper⟩

/-- The merge test of the re-normalization pass:
`range_intersects(ranges[j-1], ranges[j]) || ranges[j-1].upper == ranges[j].lower - 1`.
The subtraction is on `size_t`, hence `predW`. -/
def mergeable (a b : SRange) : Bool :=
  range_intersects a b || decide (a.upper = predW b.lower)

/-- The insertion scan of the coalescing insert (backend_png, backend_histogram,
backend_png_frames all contain this loop verbatim).  For each existing entry:
if the new range is still beyond it, keep going; if they intersect, extend the
entry in place and record a match; if the entry lies beyond the new range,
insert the new range there (unless already matched) and stop.  If the scan
ends without a match, append at the end. -/
def scanInsert (l : List SRange) (vma : SRange) (matched : Bool) : List SRange :=
  match l with
  | [] => if matched then [] else [vma]
  | r :: rest =>
    if vma.lower > r.upper then
      r :: scanInsert rest vma matched
    else if range_intersects r vma then
      range_extend r vma :: scanInsert rest vma true
    else if vma.upper < r.lower then
      if matched then r :: rest else vma :: r :: rest
    else
      r :: scanInsert rest vma matched

/-- Fuelled form of the re-normalization pass; each step either consumes one
list element or merges two into one, so fuel equal to the list length always
suffices (`renormAux_fuel`). -/
def renormAux : Nat → List SRange → List SRange
  | 0, l => l
  | _ + 1, [] => []
  | _ + 1, [r] => [r]
  | n + 1, a :: b :: rest =>
    if mergeable a b then renormAux n (range_extend a b :: rest)
    else a :: renormAux n (b :: rest)

/-- The re-normalization pass of the coalescing insert: repeatedly merge a
pair of consecutive entries that intersect or are exactly adjacent, re-checking
the same position after each merge (the `j--` in the C loop). -/
def renorm (l : List SRange) : List SRange := renormAux l.length l

/-- One coalescing insert: the scan phase followed by the re-normalization
pass, as executed per VMA by the aggregation loops of the backends. -/
def insert1 (l : List SRange) (vma : SRange) : List SRange :=
  renorm (scanInsert l vma false)

/-- Builds an Address Range Index by inserting a list of ranges, in order,
into the empty index. -/
def buildIndex (rs : List SRange) : List SRange :=
  rs.foldl insert1 []

/-- Well-formedness of a range: inclusive bounds in order (the `assert` in the
C++ `range` constructor). -/
def wfR (r : SRange) : Prop := r.lower ≤ r.upper

/-- An address is covered by a range. -/
def memR (a : Nat) (r : SRange) : Prop := r.lower ≤ a ∧ a ≤ r.upper

/-- An address is covered by some range of the index. -/
def memL (a : Nat) (l : List SRange) : Prop := ∃ r ∈ l, memR a r

/-- Separation of two ranges: strictly apart with a gap of at least one
address, so neither intersecting nor adjacent. -/
def Sep (a b : SRange) : Prop := a.upper + 1 < b.lower

/-- Internal form of the Address Range Index invariant: consecutive-pairwise
separated, every range well formed. -/
def InvariantL (l : List SRange) : Prop :=
  l.Pairwise Sep ∧ ∀ r ∈ l, wfR r

/-- The invariant as the specification states it: strictly ordered by `lower`
and no two elements mergeable. -/
def ARIInv (l : List SRange) : Prop :=
  l.Pairwise (fun a b => a.lower < b.lower ∧ mergeable a b = false) ∧ ∀ r ∈ l, wfR r

/-- Weak sortedness by lower bound, the intermediate state between the scan
phase and the re-normalization pass. -/
def SortedLower (l : List SRange) : Prop :=
  l.Chain' (fun a b => a.lower ≤ b.lower)

/-- Total number of pages covered by the index: the sum of
`ranges[i].upper - ranges[i].lower + 1` (the total_vmem accumulation in
backend_png and backend_png_frames). -/
def total_size (l : List SRange) : Nat :=
  (l.map (fun r => r.upper - r.lower + 1)).sum

/-- Embeds the pixel_offset walk of write_frame (src/backends/png.c, also in
png-frames.cpp and histogram.cpp): for each range below the address add its
full size, for the range containing the address add the offset inside it,
then stop. -/
def coordinate_of (l : List SRange) (addr : Nat) : Nat :=
  match l with
  | [] => 0
  | r :: rest =>
    if addr > r.upper then (r.upper - r.lower + 1) + coordinate_of rest addr
    else if addr > r.lower then addr - r.lower
    else 0

/-- Reads one byte of the buffer; C chars are taken as unsigned byte values
(entries are masked with % 256). -/
def readByte (buf : List Nat) (i : Nat) : Option Nat :=
  (buf[i]?).map (fun b => b % 256)

/-- Little-endian 32-bit read, modelling an aligned or unaligned
`*(uint32_t*)(buffer + i)` dereference; fails when any of the four bytes lies
past the end of the buffer. -/
def readU32 (buf : List Nat) (i : Nat) : Option Nat := do
  let a ← readByte buf i
  let b ← readByte buf (i + 1)
  let c ← readByte buf (i + 2)
  let d ← readByte buf (i + 3)
  pure (a + 256 * b + 65536 * c + 16777216 * d)

/-- Little-endian 64-bit read, modelling `*(uint64_t*)(buffer + i)`. -/
def readU64 (buf : List Nat) (i : Nat) : Option Nat := do
  let lo ← readU32 buf i
  let hi ← readU32 buf (i + 4)
  pure (lo + 4294967296 * hi)

/-- Reads a run of len bytes starting at i. -/
def readBytes (buf : List Nat) (i : Nat) : Nat → Option (List Nat)
  | 0 => some []
  | len + 1 => do
    let b ← readByte buf i
    let rest ← readBytes buf (i + 1) len
    pure (b :: rest)

/-- Reads cnt consecutive little-endian 32-bit words starting at i. -/
def readWords (buf : List Nat) (i : Nat) : Nat → Option (List Nat)
  | 0 => some []
  | cnt + 1 => do
    let w ← readU32 buf i
    let rest ← readWords buf (i + 4) cnt
    pure (w :: rest)

/-- Bitmap word count `(pages * 2 + (32 - 1)) / 32` computed on `size_t`
(64-bit), as in the backends where pages is a `size_t` derived from
`end - start`. -/
def wordCount64 (pages : Nat) : Nat := ((pages * 2 + 31) % W) / 32

/-- Bitmap word count `(pages * 2 + (32 - 1)) / 32` computed on 32-bit
unsigned arithmetic, as in src/tracefile.c and src/backends/parquet.cpp where
pages is a `uint32_t` field (the expression is evaluated at unsigned int
width before widening to `size_t`). -/
def wordCount32 (pages : Nat) : Nat := ((pages * 2 + 31) % (2 ^ 32)) / 32

/-- Per-VMA advance loop of tracefile_index_frames (src/tracefile.c): skip the
16 bytes of start/end, read the explicit 4-byte page-count field, then skip
the bitmap words.  No name field is consumed. -/
def vmaAdvanceLegacy (buf : List Nat) : Nat → Nat → Option Nat
  | index, 0 => some index
  | index, k + 1 => do
    let pages ← readU32 buf (index + 16)
    vmaAdvanceLegacy buf (index + 16 + 4 + 4 * wordCount32 pages) k

/-- Advance of tracefile_index_frames over one frame starting at off: skip the
8-byte timestamp, read the 4-byte VMA count, then advance over each VMA. -/
def frameAdvance (buf : List Nat) (off : Nat) : Option Nat := do
  let n ← readU32 buf (off + 8)
  vmaAdvanceLegacy buf (off + 12) n

/-- Loop of tracefile_index_frames: record the current offset, advance over
the frame, repeat while the offset is below the buffer length.  The fuel
argument only bounds the iteration count; tracefile_index_frames passes
enough fuel since every frame advance moves the cursor by at least 12. -/
def indexLoop (buf : List Nat) : Nat → Nat → List Nat → Option (List Nat)
  | 0, index, acc => if index < buf.length then none else some acc
  | fuel + 1, index, acc =>
    if index < buf.length then do
      let next ← frameAdvance buf index
      indexLoop buf fuel next (acc ++ [index])
    else some acc

/-- Embeds tracefile_index_frames from src/tracefile.c.  The result is the
list of recorded frame offsets; none marks an out-of-bounds field read
(undefined behaviour in the C source, which performs no bounds checks). -/
def tracefile_index_frames (buf : List Nat) : Option (List Nat) :=
  indexLoop buf (buf.length + 1) 0 []

/-- Decoded VMA record of the canonical (name-bearing) layout used by the
backends: 8-byte start, 8-byte end, 4-byte name length, the name bytes, then
the packed page-state words. -/
structure Vma where
  start : Nat
  stop : Nat
  name : List Nat
  words : List Nat
deriving Repr, DecidableEq

/-- Derived page count of a VMA: `end - start` on `size_t`
(`size_t pages = vma_end - vma_start;` in the backends). -/
def vpages (v : Vma) : Nat := (v.stop + W - v.start) % W

/-- Decode loop over the VMA records of one frame, following the walk shared
by backend_png, backend_png_frames and backend_histogram: per VMA read start
and end (16 bytes), the 4-byte name length L, consume L name bytes, then
consume `wordCount64 (end - start)` bitmap words. -/
def decodeVmas (buf : List Nat) : Nat → Nat → Option (List Vma × Nat)
  | i, 0 => some ([], i)
  | i, k + 1 => do
    let start ← readU64 buf i
    let stop ← readU64 buf (i + 8)
    let len ← readU32 buf (i + 16)
    let name ← readBytes buf (i + 20) len
    let nw := wordCount64 ((stop + W - start) % W)
    let words ← readWords buf (i + 20 + len) nw
    let (rest, fin) ← decodeVmas buf (i + 20 + len + 4 * nw) k
    pure (⟨start, stop, name, words⟩ :: rest, fin)

/-- Decoded frame: timestamp seconds/microseconds and the VMA records. -/
structure Frame where
  sec : Nat
  usec : Nat
  vmas : List Vma
deriving Repr, DecidableEq

/-- Decodes one frame at offset off per the canonical layout: 4-byte seconds,
4-byte microseconds, 4-byte VMA count, then the VMA records; returns the
frame and the cursor position immediately after the last VMA. -/
def decodeFrame (buf : List Nat) (off : Nat) : Option (Frame × Nat) := do
  let sec ← readU32 buf off
  let usec ← readU32 buf (off + 4)
  let n ← readU32 buf (off + 8)
  let (vmas, fin) ← decodeVmas buf (off + 12) n
  pure (⟨sec, usec, vmas⟩, fin)

/-- Number of buffer bytes a decoded VMA record occupies. -/
def vmaBytes (v : Vma) : Nat := 20 + v.name.length + 4 * wordCount64 (vpages v)

/-- Concrete 33-byte buffer: a 36-byte frame (one VMA with a 16-page bitmap)
truncated after 33 bytes. -/
def buf33 : List Nat :=
  [0,0,0,0,0,0,0,0, 1,0,0,0, 0,0,0,0,0,0,0,0, 0,0,0,0,0,0,0,0, 16,0,0,0, 0]

/-- Concrete 9-byte buffer: too short for even the VMA-count field of its
first frame. -/
def buf9 : List Nat := [0,0,0,0,0,0,0,0,0]

/-- Concrete 40-byte frame in the canonical name-bearing layout: timestamp,
one VMA [0,2) with a 4-byte name (three characters and NUL) and one bitmap
word for its two pages. -/
def cbuf40 : List Nat :=
  [0,0,0,0,0,0,0,0, 1,0,0,0, 0,0,0,0,0,0,0,0, 2,0,0,0,0,0,0,0, 4,0,0,0,
   97,98,99,0, 0,0,0,0]

/-- Embeds the page-state extraction used identically by every backend:
`int value = (page_buffer[j / 16] >> ((j % 16) * 2)) & 0x3;`
(write_frame in src/backends/png.c line 344 and its clones). -/
def page_state (words : List Nat) (p : Nat) : Nat :=
  ((words.getD (p / 16) 0) >>> ((p % 16) * 2)) &&& 3

/-- Modelled from the spec: the packing encoder is not part of this
repository (the trace producer writes the bitmap); per the specification,
sixteen 2-bit page states share one 32-bit word, packed low-to-high, so word
k is the base-4 number whose digit j is the state of page 16k+j. -/
def packWord (chunk : List Nat) : Nat :=
  chunk.foldr (fun s acc => s % 4 + 4 * acc) 0

/-- Fuelled chunking loop for the packing encoder; fuel equal to the number
of states always suffices. -/
def packStatesAux : Nat → List Nat → List Nat
  | 0, _ => []
  | _ + 1, [] => []
  | n + 1, s :: rest => packWord ((s :: rest).take 16) :: packStatesAux n ((s :: rest).drop 16)

/-- Modelled from the spec: packs a list of 2-bit page states into 32-bit
bitmap words, sixteen states per word, low-to-high. -/
def packStates (states : List Nat) : List Nat := packStatesAux states.length states

/-- Concrete 32-state list carrying states 0, 1, 2, 3 at page indices
0, 15, 16 and 31 (the word/bit-offset boundary crossing at page 16). -/
def statesC5 : List Nat :=
  [0,3,3,3,3,3,3,3,3,3,3,3,3,3,3,1, 2,3,3,3,3,3,3,3,3,3,3,3,3,3,3,3]

/-- Color formula of write_frame (src/backends/png.c lines 358-360), one RGB
triple per page:
red   = (value >= 0x3) ? 255 : 0,
green = (value >= 0x1 && value <= 0x2) ? 255 : 0,
blue  = (value >= 0x0 && value <= 0x1) ? 255 : 0  (value >= 0 always holds). -/
def pixel_color (value : Nat) : Nat × Nat × Nat :=
  (if 3 ≤ value then 255 else 0,
   if 1 ≤ value ∧ value ≤ 2 then 255 else 0,
   if value ≤ 1 then 255 else 0)

/-- Writes the three color bytes of one pixel into the row buffer. -/
def setPixel (pixels : List Nat) (p value : Nat) : List Nat :=
  ((pixels.set (p * 3) (pixel_color value).1).set
    (p * 3 + 1) (pixel_color value).2.1).set
    (p * 3 + 2) (pixel_color value).2.2

/-- Page loop of write_frame: for page j read the packed word, extract the
2-bit state, and if the pixel position is within the row width write the
color bytes (positions beyond the width are skipped with a warning). -/
def writePagesAux (buf : List Nat) (base pixelOffset width : Nat) :
    Nat → Nat → List Nat → Option (List Nat)
  | _, 0, pixels => some pixels
  | j, k + 1, pixels => do
    let w ← readU32 buf (base + 4 * (j / 16))
    let value := (w >>> ((j % 16) * 2)) &&& 3
    let pixels' := if width ≤ pixelOffset + j then pixels
                   else setPixel pixels (pixelOffset + j) value
    writePagesAux buf base pixelOffset width (j + 1) k pixels'

/-- VMA loop of write_frame (src/backends/png.c): per VMA read start/end,
compute the pixel offset by the coordinate walk over the aggregated ranges,
skip the name, then write one pixel per page. -/
def writeVmas (buf : List Nat) (ranges : List SRange) (width : Nat) :
    Nat → Nat → List Nat → Option (List Nat)
  | _, 0, pixels => some pixels
  | index, k + 1, pixels => do
    let start ← readU64 buf index
    let stop ← readU64 buf (index + 8)
    let pages := (stop + W - start) % W
    let pixelOffset := coordinate_of ranges start
    let len ← readU32 buf (index + 16)
    let pixels' ← writePagesAux buf (index + 20 + len) pixelOffset width 0 pages pixels
    writeVmas buf ranges width (index + 20 + len + 4 * wordCount64 pages) k pixels'

/-- Embeds write_frame of backend_png: renders one frame into an RGB row of
width pixels (3 bytes per pixel, initially zeroed by the calloc of the shared
image). -/
def write_frame_png (ranges : List SRange) (width : Nat) (buf : List Nat) :
    Option (List Nat) := do
  let n ← readU32 buf 8
  writeVmas buf ranges width 12 n (List.replicate (width * 3) 0)

/-- Concrete frame for the end-to-end Bitmap scenario: one VMA spanning
[100,102) (2 pages), unnamed, page states [1, 3] packed as the single word
13. -/
def bufC7 : List Nat :=
  [0,0,0,0,0,0,0,0, 1,0,0,0, 100,0,0,0,0,0,0,0, 102,0,0,0,0,0,0,0, 0,0,0,0,
   13,0,0,0]

/-- Page-row loop of write_frame in src/backends/parquet.cpp.  Note the
source indexes `buffer[j / 16]` — single bytes counted from the frame base —
rather than 32-bit words of the page bitmap (page_buffer is never formed),
and extracts is_present/is_dirty as bit 0 / bit 1 of the pair. -/
def parquetPages (buf : List Nat) (start : Nat) : Nat → Nat → Option (List (Nat × Bool × Bool))
  | _, 0 => some []
  | j, k + 1 => do
    let b ← readByte buf (j / 16)
    let isPresent := ((b >>> ((j % 16) * 2)) &&& 1) = 1
    let isDirty := ((b >>> ((j % 16) * 2 + 1)) &&& 1) = 1
    let rest ← parquetPages buf start (j + 1) k
    pure (((start + j) % W, isPresent, isDirty) :: rest)

/-- VMA loop of write_frame in src/backends/parquet.cpp (legacy layout:
start, end, explicit 4-byte page count, bitmap words; no name). -/
def parquetVmas (buf : List Nat) : Nat → Nat → List (Nat × Bool × Bool) →
    Option (List (Nat × Bool × Bool))
  | _, 0, acc => some acc
  | index, k + 1, acc => do
    let start ← readU64 buf index
    let _stop ← readU64 buf (index + 8)
    let pages ← readU32 buf (index + 16)
    let rows ← parquetPages buf start 0 pages
    parquetVmas buf (index + 20 + 4 * wordCount32 pages) k (acc ++ rows)

/-- Embeds the row production of write_frame in src/backends/parquet.cpp:
the (pageno, is_present, is_dirty) rows streamed for one frame. -/
def parquetRows (buf : List Nat) : Option (List (Nat × Bool × Bool)) := do
  let n ← readU32 buf 8
  parquetVmas buf 12 n []

/-- Concrete frame for the Tabular sink, in parquet.cpp's expected layout:
timestamp bytes [2,0,...], one VMA with start 5, end 6, explicit page count
1, and one bitmap word holding state 2 for its single page. -/
def cbufP : List Nat :=
  [2,0,0,0, 0,0,0,0, 1,0,0,0, 5,0,0,0,0,0,0,0, 6,0,0,0,0,0,0,0, 1,0,0,0,
   2,0,0,0]

/-- Histogram counter triple (struct histogram_data in
src/backends/histogram.cpp). -/
structure HistCounters where
  committed : Nat
  accessed : Nat
  dirty : Nat
deriving Repr, DecidableEq

/-- The histogram accumulator: per region name (byte list) and page position,
a counter triple.  Models the map of vectors in backend_histogram; positions
are preallocated and zero-initialized. -/
def Hist : Type := List Nat → Nat → HistCounters

/-- The all-zero histogram. -/
def hist0 : Hist := fun _ _ => ⟨0, 0, 0⟩

/-- One observation of the histogram pass: region name, page position inside
the region's coordinate space, and the decoded 2-bit state. -/
structure HistObs where
  name : List Nat
  pos : Nat
  value : Nat
deriving Repr, DecidableEq

/-- The counter increments of backend_histogram (histogram.cpp lines
420-425): committed += value > 0, accessed += value > 1, dirty += value > 2,
at the observation's name and position. -/
def histIncr (h : Hist) (o : HistObs) : Hist :=
  fun n p =>
    if o.name = n ∧ o.pos = p then
      ⟨(h n p).committed + (if o.value > 0 then 1 else 0),
       (h n p).accessed + (if o.value > 1 then 1 else 0),
       (h n p).dirty + (if o.value > 2 then 1 else 0)⟩
    else h n p

/-- Page loop of the histogram accumulation pass: per page extract the 2-bit
state from the packed words at base and record one observation at position
offset + j. -/
def obsPages (buf : List Nat) (base : Nat) (name : List Nat) (offset : Nat) :
    Nat → Nat → Option (List HistObs)
  | _, 0 => some []
  | j, k + 1 => do
    let w ← readU32 buf (base + 4 * (j / 16))
    let value := (w >>> ((j % 16) * 2)) &&& 3
    let rest ← obsPages buf base name offset (j + 1) k
    pure (⟨name, offset + j, value⟩ :: rest)

/-- VMA loop of the histogram accumulation pass (histogram.cpp lines
367-429): per VMA read start/end and the name length; a zero name length
skips to the next VMA immediately (the source's continue also skips the
advance over the bitmap words); otherwise read the name (length - 1 bytes),
compute the region-relative offset of start by the coordinate walk, then
observe every page. -/
def frameObsVmas (ranges : List Nat → List SRange) (buf : List Nat) :
    Nat → Nat → Option (List HistObs)
  | _, 0 => some []
  | index, k + 1 => do
    let start ← readU64 buf index
    let stop ← readU64 buf (index + 8)
    let pages := (stop + W - start) % W
    let len ← readU32 buf (index + 16)
    if len = 0 then
      frameObsVmas ranges buf (index + 20) k
    else do
      let name ← readBytes buf (index + 20) (len - 1)
      let offset := coordinate_of (ranges name) start
      let obs ← obsPages buf (index + 20 + len) name offset 0 pages
      let rest ← frameObsVmas ranges buf (index + 20 + len + 4 * wordCount64 pages) k
      pure (obs ++ rest)

/-- Observation stream of one frame of the histogram accumulation pass. -/
def frameObs (ranges : List Nat → List SRange) (buf : List Nat) :
    Option (List HistObs) := do
  let n ← readU32 buf 8
  frameObsVmas ranges buf 12 n

/-- Processes one frame of the histogram pass: fold the counter increments
over the frame's observation stream. -/
def histFrame (ranges : List Nat → List SRange) (h : Hist) (buf : List Nat) :
    Option Hist :=
  (frameObs ranges buf).map (fun obs => obs.foldl histIncr h)

/-- Processes all frames of the trace in order, as the serial frame loop of
backend_histogram does. -/
def histTrace (ranges : List Nat → List SRange) (h : Hist) :
    List (List Nat) → Option Hist
  | [] => some h
  | buf :: bufs =>
    match histFrame ranges h buf with
    | none => none
    | some h' => histTrace ranges h' bufs

/-- An observation hits the given name and position. -/
def obsMatch (name : List Nat) (pos : Nat) (o : HistObs) : Bool :=
  decide (o.name = name ∧ o.pos = pos)

/-- An observation hits the given name and position with a state above k. -/
def obsAbove (name : List Nat) (pos : Nat) (k : Nat) (o : HistObs) : Bool :=
  obsMatch name pos o && decide (o.value > k)

/-- Region map of the concrete histogram scenario: name [65] owns the single
range [100,100]. -/
def rangesC9 : List Nat → List SRange :=
  fun n => if n = [65] then [⟨100, 100⟩] else []

/-- Concrete histogram frame: one VMA [100,101) (one page), name length 2
with bytes 'A' NUL, and a bitmap word holding state v for the single page. -/
def fbufC9 (v : Nat) : List Nat :=
  [0,0,0,0,0,0,0,0, 1,0,0,0, 100,0,0,0,0,0,0,0, 101,0,0,0,0,0,0,0, 2,0,0,0,
   65,0, v,0,0,0]

/-- Per-VMA index update of the range-aggregation passes of
backend_png_frames (png-frames.cpp lines 114-121) and backend_histogram
(histogram.cpp lines 235-242): build the inclusive range
[start, end - 1] (size_t wraparound) and skip it entirely when it is
[0, SIZE_MAX]; otherwise run the coalescing insert. -/
def aggInsertVma (l : List SRange) (start stop : Nat) : List SRange :=
  let vma : SRange := ⟨start, (stop + W - 1) % W⟩
  if vma.lower = 0 ∧ vma.upper = W - 1 then l else insert1 l vma

/-- VMA loop of the range-aggregation pass of backend_png_frames.  On the
skipped [0, SIZE_MAX] range the source's continue also skips the advance
over the name and the bitmap words (only the 16 start/end bytes are
consumed). -/
def aggVmasPng (buf : List Nat) : Nat → List SRange → Nat → Option (List SRange)
  | _, l, 0 => some l
  | index, l, k + 1 => do
    let start ← readU64 buf index
    let stop ← readU64 buf (index + 8)
    let vma : SRange := ⟨start, (stop + W - 1) % W⟩
    if vma.lower = 0 ∧ vma.upper = W - 1 then
      aggVmasPng buf (index + 16) l k
    else do
      let l' := insert1 l vma
      let len ← readU32 buf (index + 16)
      let pages := (stop + W - start) % W
      aggVmasPng buf (index + 20 + len + 4 * wordCount64 pages) l' k

/-- Concrete frame holding a single VMA with start 0 and end 0. -/
def skipbufC10 : List Nat :=
  [0,0,0,0,0,0,0,0, 1,0,0,0, 0,0,0,0,0,0,0,0, 0,0,0,0,0,0,0,0]

/-- Concrete frame holding two VMAs, (start 5, end 0) and (start 0, end 5):
neither is the skipped [0, SIZE_MAX] range, yet together they coalesce to a
range spanning the whole address space. -/
def cbufC10 : List Nat :=
  [0,0,0,0,0,0,0,0, 2,0,0,0,
   5,0,0,0,0,0,0,0, 0,0,0,0,0,0,0,0, 0,0,0,0,
   0,0,0,0,0,0,0,0, 5,0,0,0,0,0,0,0, 0,0,0,0]

end SmogTrace

/-! Lemmas and claim theorems. -/

namespace SmogTrace

theorem range_intersects_iff {a b : SRange} :
    range_intersects a b = true ↔ (a.lower ≤ b.upper ∧ b.lower ≤ a.upper) := by
  simp [range_intersects]

theorem mergeable_iff {a b : SRange} :
    mergeable a b = true ↔ (range_intersects a b = true ∨ a.upper = predW b.lower) := by
  simp [mergeable]

theorem wfR_extend {a b : SRange} (ha : wfR a) (_ : wfR b) :
    wfR (range_extend a b) := by
  unfold wfR range_extend at *
  simp only []
  exact le_trans (min_le_left _ _) (le_trans ha (le_max_left _ _))

theorem extend_lower {a b : SRange} : (range_extend a b).lower = min a.lower b.lower := rfl

theorem extend_upper {a b : SRange} : (range_extend a b).upper = max a.upper b.upper := rfl

theorem mem_extend_left {x : Nat} {a b : SRange} (h : memR x a) :
    memR x (range_extend a b) :=
  ⟨le_trans (min_le_left _ _) h.1, le_trans h.2 (le_max_left _ _)⟩

theorem mem_extend_right {x : Nat} {a b : SRange} (h : memR x b) :
    memR x (range_extend a b) :=
  ⟨le_trans (min_le_right _ _) h.1, le_trans h.2 (le_max_right _ _)⟩

theorem mem_extend_iff_of_intersects {x : Nat} {a b : SRange}
    (h : range_intersects a b = true) :
    memR x (range_extend a b) ↔ memR x a ∨ memR x b := by
  rw [range_intersects_iff] at h
  constructor
  · rintro ⟨h1, h2⟩
    rw [extend_lower] at h1
    rw [extend_upper] at h2
    by_cases hxa : x ≤ a.upper
    · by_cases hax : a.lower ≤ x
      · exact Or.inl ⟨hax, hxa⟩
      · push_neg at hax
        have hmin : min a.lower b.lower = b.lower := by
          rcases min_cases a.lower b.lower with ⟨h', _⟩ | ⟨h', _⟩ <;> omega
        rw [hmin] at h1
        exact Or.inr ⟨h1, by omega⟩
    · push_neg at hxa
      have hmax : x ≤ b.upper := by
        rcases max_cases a.upper b.upper with ⟨h', _⟩ | ⟨h', _⟩ <;> omega
      have hbx : b.lower ≤ x := by omega
      exact Or.inr ⟨hbx, hmax⟩
  · rintro (h' | h')
    · exact mem_extend_left h'
    · exact mem_extend_right h'

theorem mem_extend_iff_of_mergeable {x : Nat} {a b : SRange}
    (hab : a.lower ≤ b.lower) (h : mergeable a b = true) :
    memR x (range_extend a b) ↔ memR x a ∨ memR x b := by
  rw [mergeable_iff] at h
  rcases h with h | h
  · exact mem_extend_iff_of_intersects h
  · by_cases hb0 : b.lower = 0
    · apply mem_extend_iff_of_intersects
      rw [range_intersects_iff]
      omega
    · have hb1 : 1 ≤ b.lower := by omega
      have hadj : a.upper = b.lower - 1 := by
        rw [predW, if_neg hb0] at h; exact h
      unfold memR
      rw [extend_lower, extend_upper]
      omega

end SmogTrace

namespace SmogTrace

theorem scanInsert_mem {l : List SRange} {vma : SRange} {m : Bool} {x : SRange}
    (h : x ∈ scanInsert l vma m) :
    x ∈ l ∨ (∃ r ∈ l, range_intersects r vma = true ∧ x = range_extend r vma) ∨ x = vma := by
  induction l generalizing m with
  | nil =>
    unfold scanInsert at h
    split at h
    · simp at h
    · simp at h; exact Or.inr (Or.inr h)
  | cons r rest ih =>
    unfold scanInsert at h
    split at h
    · rcases List.mem_cons.1 h with h' | h'
      · exact Or.inl (by simp [h'])
      · rcases ih h' with h'' | ⟨s, hs, hint, hx⟩ | h''
        · exact Or.inl (List.mem_cons_of_mem _ h'')
        · exact Or.inr (Or.inl ⟨s, List.mem_cons_of_mem _ hs, hint, hx⟩)
        · exact Or.inr (Or.inr h'')
    · split at h
      · rcases List.mem_cons.1 h with h' | h'
        · rename_i hint
          exact Or.inr (Or.inl ⟨r, List.mem_cons_self _ _, hint, h'⟩)
        · rcases ih h' with h'' | ⟨s, hs, hint, hx⟩ | h''
          · exact Or.inl (List.mem_cons_of_mem _ h'')
          · exact Or.inr (Or.inl ⟨s, List.mem_cons_of_mem _ hs, hint, hx⟩)
          · exact Or.inr (Or.inr h'')
      · split at h
        · split at h
          · exact Or.inl h
          · rcases List.mem_cons.1 h with h' | h'
            · exact Or.inr (Or.inr h')
            · exact Or.inl h'
        · rcases List.mem_cons.1 h with h' | h'
          · exact Or.inl (by simp [h'])
          · rcases ih h' with h'' | ⟨s, hs, hint, hx⟩ | h''
            · exact Or.inl (List.mem_cons_of_mem _ h'')
            · exact Or.inr (Or.inl ⟨s, List.mem_cons_of_mem _ hs, hint, hx⟩)
            · exact Or.inr (Or.inr h'')

theorem scanInsert_wf {l : List SRange} {vma : SRange} {m : Bool}
    (hl : ∀ r ∈ l, wfR r) (hv : wfR vma) :
    ∀ x ∈ scanInsert l vma m, wfR x := by
  intro x hx
  rcases scanInsert_mem hx with h | ⟨s, hs, _, hx'⟩ | h
  · exact hl x h
  · exact hx' ▸ wfR_extend (hl s hs) hv
  · exact h ▸ hv

theorem scanInsert_lower_bound {l : List SRange} {vma : SRange} {m : Bool} {k : Nat}
    (hl : ∀ r ∈ l, k ≤ r.lower) (hv : k ≤ vma.lower) :
    ∀ x ∈ scanInsert l vma m, k ≤ x.lower := by
  intro x hx
  rcases scanInsert_mem hx with h | ⟨s, hs, _, hx'⟩ | h
  · exact hl x h
  · rw [hx', extend_lower]
    exact le_min (hl s hs) hv
  · exact h ▸ hv

theorem pairwise_sep_lower {r : SRange} {rest : List SRange}
    (h : (r :: rest).Pairwise Sep) (hw : wfR r) :
    ∀ x ∈ rest, r.lower ≤ x.lower := by
  intro x hx
  have := (List.pairwise_cons.1 h).1 x hx
  unfold Sep at this
  unfold wfR at hw
  omega

theorem mem_of_head?_mem {x : SRange} {l : List SRange} (h : x ∈ l.head?) : x ∈ l := by
  cases l with
  | nil => simp at h
  | cons a t => simp at h; simp [h]

theorem scanInsert_sorted {l : List SRange} {vma : SRange} {m : Bool}
    (hp : l.Pairwise Sep) (hw : ∀ r ∈ l, wfR r) (hv : wfR vma) :
    SortedLower (scanInsert l vma m) := by
  induction l generalizing m with
  | nil =>
    unfold scanInsert SortedLower
    split <;> simp
  | cons r rest ih =>
    have hpr : rest.Pairwise Sep := (List.pairwise_cons.1 hp).2
    have hwr : ∀ x ∈ rest, wfR x := fun x hx => hw x (List.mem_cons_of_mem _ hx)
    have hlow : ∀ x ∈ rest, r.lower ≤ x.lower :=
      pairwise_sep_lower hp (hw r (List.mem_cons_self _ _))
    unfold scanInsert
    split
    · rename_i hgt
      unfold SortedLower
      rw [List.chain'_cons']
      refine ⟨?_, ih hpr hwr⟩
      intro y hy
      apply scanInsert_lower_bound hlow _ y (mem_of_head?_mem hy)
      have := hw r (List.mem_cons_self _ _)
      unfold wfR at this
      omega
    · split
      · rename_i hint
        unfold SortedLower
        rw [List.chain'_cons']
        refine ⟨?_, ih hpr hwr⟩
        intro y hy
        have hk : ∀ x ∈ rest, min r.lower vma.lower ≤ x.lower := by
          intro x hx
          exact le_trans (min_le_left _ _) (hlow x hx)
        have := scanInsert_lower_bound hk (min_le_right _ _) y (mem_of_head?_mem hy)
        rw [extend_lower]
        exact this
      · split
        · split
          · unfold SortedLower
            rw [List.chain'_cons']
            refine ⟨?_, ?_⟩
            · intro y hy
              have hy' := mem_of_head?_mem hy
              exact hlow y hy'
            · unfold SortedLower at *
              apply List.Pairwise.chain'
              apply hpr.imp_of_mem
              intro a b ha hb hsep
              have hwa := hwr a ha
              unfold Sep at hsep
              unfold wfR at hwa
              omega
          · rename_i hng hni hlt _
            unfold SortedLower
            rw [List.chain'_cons']
            constructor
            · intro y hy
              simp at hy
              subst hy
              unfold wfR at hv
              omega
            · rw [List.chain'_cons']
              refine ⟨?_, ?_⟩
              · intro y hy
                exact hlow y (mem_of_head?_mem hy)
              · apply List.Pairwise.chain'
                apply hpr.imp_of_mem
                intro a b ha hb hsep
                have hwa := hwr a ha
                unfold Sep at hsep
                unfold wfR at hwa
                omega
        · rename_i hng hni hnl
          exfalso
          push_neg at hng hnl
          exact hni (range_intersects_iff.2 ⟨hnl, hng⟩)

end SmogTrace

namespace SmogTrace

theorem scanInsert_mem_sub {l : List SRange} {vma : SRange} {m : Bool} {a : Nat}
    (h : memL a (scanInsert l vma m)) : memL a l ∨ memR a vma := by
  rcases h with ⟨x, hx, hax⟩
  rcases scanInsert_mem hx with h' | ⟨s, hs, hint, hx'⟩ | h'
  · exact Or.inl ⟨x, h', hax⟩
  · rw [hx'] at hax
    rcases (mem_extend_iff_of_intersects (by
      rw [range_intersects_iff] at hint ⊢
      omega)).1 hax with h'' | h''
    · exact Or.inl ⟨s, hs, h''⟩
    · exact Or.inr h''
  · exact Or.inr (h' ▸ hax)

theorem scanInsert_mem_sup_left {l : List SRange} {vma : SRange} {m : Bool} {a : Nat}
    (h : memL a l) : memL a (scanInsert l vma m) := by
  induction l generalizing m with
  | nil => rcases h with ⟨x, hx, _⟩; simp at hx
  | cons r rest ih =>
    rcases h with ⟨x, hx, hax⟩
    unfold scanInsert
    rcases List.mem_cons.1 hx with h' | h'
    · subst h'
      split
      · exact ⟨x, List.mem_cons_self _ _, hax⟩
      · split
        · exact ⟨range_extend x vma, List.mem_cons_self _ _, mem_extend_left hax⟩
        · split
          · split
            · exact ⟨x, List.mem_cons_self _ _, hax⟩
            · exact ⟨x, List.mem_cons_of_mem _ (List.mem_cons_self _ _), hax⟩
          · exact ⟨x, List.mem_cons_self _ _, hax⟩
    · have hmem : memL a rest := ⟨x, h', hax⟩
      split
      · rcases ih hmem with ⟨y, hy, hay⟩
        exact ⟨y, List.mem_cons_of_mem _ hy, hay⟩
      · split
        · rcases ih hmem with ⟨y, hy, hay⟩
          exact ⟨y, List.mem_cons_of_mem _ hy, hay⟩
        · split
          · split
            · exact ⟨x, List.mem_cons_of_mem _ h', hax⟩
            · exact ⟨x, List.mem_cons_of_mem _ (List.mem_cons_of_mem _ h'), hax⟩
          · rcases ih hmem with ⟨y, hy, hay⟩
            exact ⟨y, List.mem_cons_of_mem _ hy, hay⟩

theorem scanInsert_mem_sup_vma {l : List SRange} {vma : SRange} {a : Nat}
    (h : memR a vma) : memL a (scanInsert l vma false) := by
  induction l with
  | nil => exact ⟨vma, by simp [scanInsert], h⟩
  | cons r rest ih =>
    unfold scanInsert
    split
    · rcases ih with ⟨y, hy, hay⟩
      exact ⟨y, List.mem_cons_of_mem _ hy, hay⟩
    · split
      · exact ⟨range_extend r vma, List.mem_cons_self _ _, mem_extend_right h⟩
      · split
        · exact ⟨vma, List.mem_cons_self _ _, h⟩
        · rcases ih with ⟨y, hy, hay⟩
          exact ⟨y, List.mem_cons_of_mem _ hy, hay⟩

theorem scanInsert_pts {l : List SRange} {vma : SRange} {a : Nat} :
    memL a (scanInsert l vma false) ↔ memL a l ∨ memR a vma := by
  constructor
  · exact scanInsert_mem_sub
  · rintro (h | h)
    · exact scanInsert_mem_sup_left h
    · exact scanInsert_mem_sup_vma h

end SmogTrace

namespace SmogTrace

theorem memL_cons {a : Nat} {r : SRange} {t : List SRange} :
    memL a (r :: t) ↔ memR a r ∨ memL a t := by
  unfold memL
  constructor
  · rintro ⟨x, hx, hax⟩
    rcases List.mem_cons.1 hx with h | h
    · exact Or.inl (h ▸ hax)
    · exact Or.inr ⟨x, h, hax⟩
  · rintro (h | ⟨x, hx, hax⟩)
    · exact ⟨r, List.mem_cons_self _ _, h⟩
    · exact ⟨x, List.mem_cons_of_mem _ hx, hax⟩

theorem memL_nil {a : Nat} : ¬ memL a [] := by
  rintro ⟨x, hx, _⟩; simp at hx

theorem sep_of_not_mergeable {a b : SRange} (hab : a.lower ≤ b.lower) (hwb : wfR b)
    (hnm : mergeable a b = false) : Sep a b := by
  unfold mergeable at hnm
  rw [Bool.or_eq_false_iff] at hnm
  rcases hnm with ⟨hni, hna⟩
  have hni' : ¬ (a.lower ≤ b.upper ∧ b.lower ≤ a.upper) := by
    intro hc
    rw [← range_intersects_iff] at hc
    rw [hc] at hni
    simp at hni
  have hna' : ¬ (a.upper = predW b.lower) := by
    intro hc
    simp [hc] at hna
  unfold wfR at hwb
  unfold Sep
  have h1 : a.upper < b.lower := by
    by_contra h
    exact hni' ⟨le_trans hab hwb, by omega⟩
  have hb1 : ¬ (b.lower = 0) := by omega
  rw [predW, if_neg hb1] at hna'
  omega

theorem mergeable_of_not_sep {a b : SRange} (hab : a.lower ≤ b.lower) (hwb : wfR b)
    (hns : ¬ Sep a b) : mergeable a b = true := by
  rcases Bool.eq_false_or_eq_true (mergeable a b) with h | h
  · exact h
  · exact absurd (sep_of_not_mergeable hab hwb h) hns

theorem sortedLower_cons_of {a b : SRange} {rest : List SRange}
    (hs : SortedLower (a :: b :: rest)) :
    SortedLower (range_extend a b :: rest) := by
  unfold SortedLower at *
  rw [List.chain'_cons'] at hs ⊢
  rcases hs with ⟨hab, hs'⟩
  rw [List.chain'_cons'] at hs'
  rcases hs' with ⟨hbh, hrest⟩
  refine ⟨?_, hrest⟩
  intro y hy
  have h1 : a.lower ≤ b.lower := hab b (by simp)
  have h2 : b.lower ≤ y.lower := hbh y hy
  rw [extend_lower]
  omega

theorem sortedLower_head_le {a b : SRange} {rest : List SRange}
    (hs : SortedLower (a :: b :: rest)) : a.lower ≤ b.lower := by
  unfold SortedLower at hs
  rw [List.chain'_cons'] at hs
  exact hs.1 b (by simp)

theorem renorm_head_lower (n : Nat) (l : List SRange) (hs : SortedLower l) :
    ((renormAux n l).head?).map SRange.lower = (l.head?).map SRange.lower := by
  induction n generalizing l with
  | zero => rfl
  | succ n ih =>
    match l with
    | [] => rfl
    | [r] => rfl
    | a :: b :: rest =>
      unfold renormAux
      split
      · rw [ih _ (sortedLower_cons_of hs)]
        simp [extend_lower]
        exact sortedLower_head_le hs
      · rfl

theorem renorm_wf (n : Nat) (l : List SRange) (hw : ∀ x ∈ l, wfR x) :
    ∀ x ∈ renormAux n l, wfR x := by
  induction n generalizing l with
  | zero => exact hw
  | succ n ih =>
    match l with
    | [] => exact hw
    | [r] => exact hw
    | a :: b :: rest =>
      unfold renormAux
      split
      · apply ih
        intro x hx
        rcases List.mem_cons.1 hx with h | h
        · subst h
          exact wfR_extend (hw a (by simp)) (hw b (by simp))
        · exact hw x (by simp [h])
      · intro x hx
        rcases List.mem_cons.1 hx with h | h
        · exact h ▸ hw a (by simp)
        · refine ih (b :: rest) ?_ x h
          intro y hy
          exact hw y (List.mem_cons_of_mem _ hy)

theorem renorm_chain (n : Nat) (l : List SRange) (hlen : l.length ≤ n)
    (hs : SortedLower l) (hw : ∀ x ∈ l, wfR x) :
    List.Chain' Sep (renormAux n l) := by
  induction n generalizing l with
  | zero =>
    have : l = [] := List.length_eq_zero.1 (Nat.le_zero.1 hlen)
    subst this
    simp [renormAux]
  | succ n ih =>
    match l with
    | [] => simp [renormAux]
    | [r] => simp [renormAux]
    | a :: b :: rest =>
      unfold renormAux
      split
      · apply ih
        · simp at hlen ⊢; omega
        · exact sortedLower_cons_of hs
        · intro x hx
          rcases List.mem_cons.1 hx with h | h
          · subst h
            exact wfR_extend (hw a (by simp)) (hw b (by simp))
          · exact hw x (by simp [h])
      · rename_i hnm
        rw [Bool.not_eq_true] at hnm
        have hsb : SortedLower (b :: rest) := by
          unfold SortedLower at hs ⊢
          exact hs.tail
        have hwb : ∀ x ∈ b :: rest, wfR x := fun x hx => hw x (List.mem_cons_of_mem _ hx)
        rw [List.chain'_cons']
        constructor
        · intro y hy
          have hhl := renorm_head_lower n (b :: rest) hsb
          have hylow : y.lower = b.lower := by
            cases hh : (renormAux n (b :: rest)).head? with
            | none => rw [hh] at hy; simp at hy
            | some z =>
              rw [hh] at hy hhl
              simp at hy hhl
              subst hy
              exact hhl
          have hsep : Sep a b :=
            sep_of_not_mergeable (sortedLower_head_le hs) (hw b (by simp)) hnm
          unfold Sep at *
          omega
        · apply ih
          · simp at hlen ⊢; omega
          · exact hsb
          · exact hwb

theorem renorm_pts (n : Nat) (l : List SRange) (hlen : l.length ≤ n)
    (hs : SortedLower l) {x : Nat} :
    memL x (renormAux n l) ↔ memL x l := by
  induction n generalizing l with
  | zero =>
    have : l = [] := List.length_eq_zero.1 (Nat.le_zero.1 hlen)
    subst this
    rfl
  | succ n ih =>
    match l with
    | [] => rfl
    | [r] => rfl
    | a :: b :: rest =>
      unfold renormAux
      split
      · rename_i hm
        rw [ih (range_extend a b :: rest) (by simp at hlen ⊢; omega) (sortedLower_cons_of hs)]
        rw [memL_cons, memL_cons, memL_cons]
        rw [mem_extend_iff_of_mergeable (sortedLower_head_le hs) hm]
        tauto
      · have hsb : SortedLower (b :: rest) := by
          unfold SortedLower at hs ⊢
          exact hs.tail
        rw [memL_cons, memL_cons]
        rw [ih (b :: rest) (by simp at hlen ⊢; omega) hsb]

end SmogTrace

namespace SmogTrace

theorem sep_all {a : SRange} {l : List SRange} (hc : List.Chain' Sep (a :: l))
    (hw : ∀ r ∈ a :: l, wfR r) : ∀ b ∈ l, Sep a b := by
  induction l generalizing a with
  | nil => intro b hb; simp at hb
  | cons c t ih =>
    intro b hb
    have hac : Sep a c := (List.chain'_cons.1 hc).1
    rcases List.mem_cons.1 hb with h | h
    · exact h ▸ hac
    · have hct : List.Chain' Sep (c :: t) := (List.chain'_cons.1 hc).2
      have hcb : Sep c b := ih hct (fun r hr => hw r (List.mem_cons_of_mem _ hr)) b h
      have hwc : wfR c := hw c (by simp)
      unfold Sep at *
      unfold wfR at hwc
      omega

theorem chain_sep_pairwise {l : List SRange} (hc : List.Chain' Sep l)
    (hw : ∀ r ∈ l, wfR r) : l.Pairwise Sep := by
  induction l with
  | nil => exact List.Pairwise.nil
  | cons a t ih =>
    rw [List.pairwise_cons]
    constructor
    · exact sep_all hc hw
    · exact ih (List.Chain'.tail hc) (fun r hr => hw r (List.mem_cons_of_mem _ hr))

theorem insert1_invariant {l : List SRange} {vma : SRange}
    (hl : InvariantL l) (hv : wfR vma) : InvariantL (insert1 l vma) := by
  rcases hl with ⟨hp, hw⟩
  have hsc := scanInsert_sorted (m := false) hp hw hv
  have hwc := scanInsert_wf (m := false) hw hv
  constructor
  · apply chain_sep_pairwise
    · exact renorm_chain _ _ le_rfl hsc hwc
    · exact renorm_wf _ _ hwc
  · exact renorm_wf _ _ hwc

theorem insert1_pts {l : List SRange} {vma : SRange} {a : Nat}
    (hl : InvariantL l) (hv : wfR vma) :
    memL a (insert1 l vma) ↔ memL a l ∨ memR a vma := by
  rcases hl with ⟨hp, hw⟩
  have hsc := scanInsert_sorted (m := false) hp hw hv
  unfold insert1 renorm
  rw [renorm_pts _ _ le_rfl hsc]
  exact scanInsert_pts

theorem canonical_unique {l₁ l₂ : List SRange}
    (h₁ : InvariantL l₁) (h₂ : InvariantL l₂)
    (hpts : ∀ a, memL a l₁ ↔ memL a l₂) : l₁ = l₂ := by
  induction l₁ generalizing l₂ with
  | nil =>
    cases l₂ with
    | nil => rfl
    | cons b t₂ =>
      exfalso
      have hb : memL b.lower (b :: t₂) := memL_cons.2 (Or.inl ⟨le_rfl, h₂.2 b (by simp)⟩)
      exact memL_nil ((hpts b.lower).2 hb)
  | cons a t₁ ih =>
    cases l₂ with
    | nil =>
      exfalso
      have ha : memL a.lower (a :: t₁) := memL_cons.2 (Or.inl ⟨le_rfl, h₁.2 a (by simp)⟩)
      exact memL_nil ((hpts a.lower).1 ha)
    | cons b t₂ =>
      have hwa : wfR a := h₁.2 a (by simp)
      have hwb : wfR b := h₂.2 b (by simp)
      have hsep₁ : ∀ x ∈ t₁, Sep a x := (List.pairwise_cons.1 h₁.1).1
      have hsep₂ : ∀ x ∈ t₂, Sep b x := (List.pairwise_cons.1 h₂.1).1
      have hwt₁ : ∀ x ∈ t₁, wfR x := fun x hx => h₁.2 x (List.mem_cons_of_mem _ hx)
      have hwt₂ : ∀ x ∈ t₂, wfR x := fun x hx => h₂.2 x (List.mem_cons_of_mem _ hx)
      have hlow : a.lower = b.lower := by
        have h1 : memL a.lower (b :: t₂) :=
          (hpts a.lower).1 (memL_cons.2 (Or.inl ⟨le_rfl, hwa⟩))
        have h2 : memL b.lower (a :: t₁) :=
          (hpts b.lower).2 (memL_cons.2 (Or.inl ⟨le_rfl, hwb⟩))
        rcases memL_cons.1 h1 with h1' | ⟨x, hx, hax⟩
        · rcases memL_cons.1 h2 with h2' | ⟨y, hy, hay⟩
          · unfold memR at *; omega
          · have := hsep₁ y hy
            unfold Sep at this
            unfold memR at *
            unfold wfR at hwa
            omega
        · rcases memL_cons.1 h2 with h2' | ⟨y, hy, hay⟩
          · have := hsep₂ x hx
            unfold Sep at this
            unfold memR at *
            unfold wfR at hwb
            omega
          · have hx' := hsep₂ x hx
            have hy' := hsep₁ y hy
            unfold Sep at hx' hy'
            unfold memR at *
            unfold wfR at hwa hwb
            omega
      have hupp : a.upper = b.upper := by
        rcases Nat.lt_trichotomy a.upper b.upper with h | h | h
        · exfalso
          have hmem : memL (a.upper + 1) (b :: t₂) := by
            apply memL_cons.2
            apply Or.inl
            unfold memR wfR at *
            omega
          have hmem' := (hpts (a.upper + 1)).2 hmem
          rcases memL_cons.1 hmem' with h' | ⟨x, hx, hax⟩
          · unfold memR at h'; omega
          · have := hsep₁ x hx
            unfold Sep at this
            unfold memR at hax
            omega
        · exact h
        · exfalso
          have hmem : memL (b.upper + 1) (a :: t₁) := by
            apply memL_cons.2
            apply Or.inl
            unfold memR wfR at *
            omega
          have hmem' := (hpts (b.upper + 1)).1 hmem
          rcases memL_cons.1 hmem' with h' | ⟨x, hx, hax⟩
          · unfold memR at h'; omega
          · have := hsep₂ x hx
            unfold Sep at this
            unfold memR at hax
            omega
      have hab : a = b := by
        cases a; cases b
        simp_all
      subst hab
      have htail : ∀ x, memL x t₁ ↔ memL x t₂ := by
        intro x
        constructor
        · intro hx
          have hx' : memL x (a :: t₁) := memL_cons.2 (Or.inr hx)
          rcases memL_cons.1 ((hpts x).1 hx') with h' | h'
          · exfalso
            rcases hx with ⟨s, hs, hsx⟩
            have := hsep₁ s hs
            unfold Sep at this
            unfold memR at *
            omega
          · exact h'
        · intro hx
          have hx' : memL x (a :: t₂) := memL_cons.2 (Or.inr hx)
          rcases memL_cons.1 ((hpts x).2 hx') with h' | h'
          · exfalso
            rcases hx with ⟨s, hs, hsx⟩
            have := hsep₂ s hs
            unfold Sep at this
            unfold memR at *
            omega
          · exact h'
      have ht : t₁ = t₂ := by
        apply ih
        · exact ⟨(List.pairwise_cons.1 h₁.1).2, hwt₁⟩
        · exact ⟨(List.pairwise_cons.1 h₂.1).2, hwt₂⟩
        · exact htail
      rw [ht]

end SmogTrace

namespace SmogTrace

theorem buildIndex_invariant_aux {rs : List SRange} {l : List SRange}
    (hl : InvariantL l) (hw : ∀ r ∈ rs, wfR r) :
    InvariantL (rs.foldl insert1 l) := by
  induction rs generalizing l with
  | nil => exact hl
  | cons r t ih =>
    simp only [List.foldl_cons]
    exact ih (insert1_invariant hl (hw r (by simp)))
      (fun x hx => hw x (List.mem_cons_of_mem _ hx))

theorem invariantL_nil : InvariantL [] := ⟨List.Pairwise.nil, by simp⟩

theorem buildIndex_invariant {rs : List SRange} (hw : ∀ r ∈ rs, wfR r) :
    InvariantL (buildIndex rs) :=
  buildIndex_invariant_aux invariantL_nil hw

theorem buildIndex_pts_aux {rs : List SRange} {l : List SRange} {a : Nat}
    (hl : InvariantL l) (hw : ∀ r ∈ rs, wfR r) :
    memL a (rs.foldl insert1 l) ↔ memL a l ∨ ∃ r ∈ rs, memR a r := by
  induction rs generalizing l with
  | nil => simp
  | cons r t ih =>
    simp only [List.foldl_cons]
    rw [ih (insert1_invariant hl (hw r (by simp)))
      (fun x hx => hw x (List.mem_cons_of_mem _ hx))]
    rw [insert1_pts hl (hw r (by simp))]
    constructor
    · rintro ((h | h) | ⟨x, hx, hax⟩)
      · exact Or.inl h
      · exact Or.inr ⟨r, by simp, h⟩
      · exact Or.inr ⟨x, by simp [hx], hax⟩
    · rintro (h | ⟨x, hx, hax⟩)
      · exact Or.inl (Or.inl h)
      · rcases List.mem_cons.1 hx with h' | h'
        · exact Or.inl (Or.inr (h' ▸ hax))
        · exact Or.inr ⟨x, h', hax⟩

theorem buildIndex_pts {rs : List SRange} {a : Nat} (hw : ∀ r ∈ rs, wfR r) :
    memL a (buildIndex rs) ↔ ∃ r ∈ rs, memR a r := by
  unfold buildIndex
  rw [buildIndex_pts_aux invariantL_nil hw]
  constructor
  · rintro (h | h)
    · exact absurd h memL_nil
    · exact h
  · exact Or.inr

theorem buildIndex_perm {rs₁ rs₂ : List SRange}
    (hperm : rs₁.Perm rs₂) (hw : ∀ r ∈ rs₁, wfR r) :
    buildIndex rs₁ = buildIndex rs₂ := by
  have hw₂ : ∀ r ∈ rs₂, wfR r := fun r hr => hw r (hperm.mem_iff.2 hr)
  apply canonical_unique (buildIndex_invariant hw) (buildIndex_invariant hw₂)
  intro a
  rw [buildIndex_pts hw, buildIndex_pts hw₂]
  constructor
  · rintro ⟨r, hr, har⟩
    exact ⟨r, hperm.mem_iff.1 hr, har⟩
  · rintro ⟨r, hr, har⟩
    exact ⟨r, hperm.mem_iff.2 hr, har⟩

theorem sep_pairwise_iff {l : List SRange} (hw : ∀ r ∈ l, wfR r) :
    l.Pairwise Sep ↔ l.Pairwise (fun a b => a.lower < b.lower ∧ mergeable a b = false) := by
  induction l with
  | nil => simp
  | cons a t ih =>
    rw [List.pairwise_cons, List.pairwise_cons]
    have hwa : wfR a := hw a (by simp)
    have hwt : ∀ r ∈ t, wfR r := fun r hr => hw r (List.mem_cons_of_mem _ hr)
    rw [ih hwt]
    constructor
    · rintro ⟨hall, hp⟩
      refine ⟨?_, hp⟩
      intro b hb
      have hsep := hall b hb
      have hwb : wfR b := hwt b hb
      constructor
      · unfold Sep at hsep
        unfold wfR at hwa
        omega
      · rcases Bool.eq_false_or_eq_true (mergeable a b) with h | h
        swap
        · exact h
        · exfalso
          rw [mergeable_iff] at h
          rcases h with h | h
          · rw [range_intersects_iff] at h
            unfold Sep at hsep
            omega
          · have hb1 : ¬ (b.lower = 0) := by
              unfold Sep at hsep
              omega
            rw [predW, if_neg hb1] at h
            unfold Sep at hsep
            omega
    · rintro ⟨hall, hp⟩
      refine ⟨?_, hp⟩
      intro b hb
      exact sep_of_not_mergeable (le_of_lt (hall b hb).1) (hwt b hb) (hall b hb).2

theorem ariInv_iff_invariantL {l : List SRange} : ARIInv l ↔ InvariantL l := by
  unfold ARIInv InvariantL
  constructor
  · rintro ⟨hp, hw⟩
    exact ⟨(sep_pairwise_iff hw).2 hp, hw⟩
  · rintro ⟨hp, hw⟩
    exact ⟨(sep_pairwise_iff hw).1 hp, hw⟩

end SmogTrace

namespace SmogTrace

theorem coordinate_cons_mem {addr : Nat} {r : SRange} {rest : List SRange}
    (h : memR addr r) : coordinate_of (r :: rest) addr = addr - r.lower := by
  rcases h with ⟨h1, h2⟩
  simp only [coordinate_of]
  rw [if_neg (by omega)]
  by_cases h3 : addr > r.lower
  · rw [if_pos h3]
  · rw [if_neg h3]
    omega

theorem coordinate_cons_beyond {addr : Nat} {r : SRange} {rest : List SRange}
    (h : addr > r.upper) :
    coordinate_of (r :: rest) addr = (r.upper - r.lower + 1) + coordinate_of rest addr := by
  simp only [coordinate_of]
  rw [if_pos h]

theorem memL_beyond_head {addr : Nat} {r : SRange} {rest : List SRange}
    (hp : (r :: rest).Pairwise Sep) (h : memL addr rest) : addr > r.upper := by
  rcases h with ⟨x, hx, hax⟩
  have := (List.pairwise_cons.1 hp).1 x hx
  unfold Sep at this
  unfold memR at hax
  omega

theorem coordinate_split {l₁ l₂ : List SRange} {r : SRange} {addr : Nat}
    (hp : (l₁ ++ r :: l₂).Pairwise Sep) (h : memR addr r) :
    coordinate_of (l₁ ++ r :: l₂) addr = total_size l₁ + (addr - r.lower) := by
  induction l₁ with
  | nil =>
    simp only [List.nil_append]
    rw [coordinate_cons_mem h]
    simp [total_size]
  | cons x t ih =>
    have hp' : (x :: (t ++ r :: l₂)).Pairwise Sep := by simpa using hp
    have hsep : Sep x r := (List.pairwise_cons.1 hp').1 r (by simp)
    have haddr : addr > x.upper := by
      unfold Sep at hsep
      unfold memR at h
      omega
    simp only [List.cons_append]
    rw [coordinate_cons_beyond haddr]
    rw [ih (List.pairwise_cons.1 hp').2]
    simp [total_size]
    omega

theorem invariantL_tail {r : SRange} {rest : List SRange}
    (h : InvariantL (r :: rest)) : InvariantL rest :=
  ⟨(List.pairwise_cons.1 h.1).2, fun x hx => h.2 x (List.mem_cons_of_mem _ hx)⟩

theorem coordinate_strictMono {l : List SRange} {a₁ a₂ : Nat}
    (hl : InvariantL l) (h₁ : memL a₁ l) (h₂ : memL a₂ l) (h12 : a₁ < a₂) :
    coordinate_of l a₁ < coordinate_of l a₂ := by
  induction l with
  | nil => exact absurd h₁ memL_nil
  | cons r rest ih =>
    rcases memL_cons.1 h₁ with hm₁ | hm₁
    · rcases memL_cons.1 h₂ with hm₂ | hm₂
      · rw [coordinate_cons_mem hm₁, coordinate_cons_mem hm₂]
        unfold memR at hm₁ hm₂
        omega
      · have hb := memL_beyond_head hl.1 hm₂
        rw [coordinate_cons_mem hm₁, coordinate_cons_beyond hb]
        unfold memR at hm₁
        omega
    · have hb₁ := memL_beyond_head hl.1 hm₁
      rcases memL_cons.1 h₂ with hm₂ | hm₂
      · exfalso
        unfold memR at hm₂
        omega
      · have hb₂ : a₂ > r.upper := by omega
        rw [coordinate_cons_beyond hb₁, coordinate_cons_beyond hb₂]
        have := ih (invariantL_tail hl) hm₁ hm₂
        omega

theorem coordinate_lt_total {l : List SRange} {a : Nat}
    (hl : InvariantL l) (h : memL a l) :
    coordinate_of l a < total_size l := by
  induction l with
  | nil => exact absurd h memL_nil
  | cons r rest ih =>
    rcases memL_cons.1 h with hm | hm
    · rw [coordinate_cons_mem hm]
      unfold memR at hm
      simp [total_size]
      omega
    · have hb := memL_beyond_head hl.1 hm
      rw [coordinate_cons_beyond hb]
      have := ih (invariantL_tail hl) hm
      simp [total_size] at *
      omega

theorem coordinate_surj {l : List SRange} {c : Nat}
    (hl : InvariantL l) (hc : c < total_size l) :
    ∃ a, memL a l ∧ coordinate_of l a = c := by
  induction l generalizing c with
  | nil => simp [total_size] at hc
  | cons r rest ih =>
    have hwr : wfR r := hl.2 r (by simp)
    by_cases h : c < r.upper - r.lower + 1
    · refine ⟨r.lower + c, ?_, ?_⟩
      · apply memL_cons.2
        apply Or.inl
        unfold memR wfR at *
        omega
      · rw [coordinate_cons_mem (by unfold memR wfR at *; omega)]
        omega
    · push_neg at h
      have hc' : c - (r.upper - r.lower + 1) < total_size rest := by
        simp [total_size] at hc ⊢
        omega
      rcases ih (invariantL_tail hl) hc' with ⟨a, ha, hca⟩
      have hb : a > r.upper := memL_beyond_head hl.1 ha
      refine ⟨a, memL_cons.2 (Or.inr ha), ?_⟩
      rw [coordinate_cons_beyond hb]
      omega

end SmogTrace

namespace SmogTrace

theorem wfR_mk {a b : Nat} : wfR ⟨a, b⟩ ↔ a ≤ b := Iff.rfl

theorem memR_mk {x a b : Nat} : memR x ⟨a, b⟩ ↔ a ≤ x ∧ x ≤ b := Iff.rfl

/-- C2: the coalescing insert of the Address Range Index is insertion-order
independent: inserting any permutation of a list of well-formed ranges into
the empty index yields the same final list, and every permutation of
inserting [0,10], [20,30], [5,25] yields exactly [0,30]. -/
theorem claim_C2_order_independence :
    (∀ rs₁ rs₂ : List SRange, rs₁.Perm rs₂ → (∀ r ∈ rs₁, wfR r) →
      buildIndex rs₁ = buildIndex rs₂) ∧
    (∀ rs : List SRange, rs.Perm [⟨0, 10⟩, ⟨20, 30⟩, ⟨5, 25⟩] →
      buildIndex rs = [⟨0, 30⟩]) := by
  constructor
  · exact fun rs₁ rs₂ h hw => buildIndex_perm h hw
  · intro rs h
    have hw : ∀ r ∈ rs, wfR r := by
      intro r hr
      have hmem := h.mem_iff.1 hr
      simp at hmem
      rcases hmem with h' | h' | h' <;> subst h' <;> exact wfR_mk.2 (by omega)
    rw [buildIndex_perm h hw]
    decide

/-- Closed instance of claim C2's theorem at a concrete permutation. -/
theorem claim_C2_witness :
    buildIndex [⟨5, 25⟩, ⟨0, 10⟩, ⟨20, 30⟩] = [⟨0, 30⟩] :=
  claim_C2_order_independence.2 [⟨5, 25⟩, ⟨0, 10⟩, ⟨20, 30⟩] (by decide)

/-- C3: every coalescing insert of a well-formed range preserves the Address
Range Index invariant (strictly ordered by lower bound, no two elements
mergeable, all ranges well formed), and inserting [0,9] then [10,19] into the
empty index yields the single merged range [0,19]. -/
theorem claim_C3_invariant :
    (∀ (l : List SRange) (vma : SRange), ARIInv l → wfR vma →
      ARIInv (insert1 l vma)) ∧
    insert1 (insert1 [] ⟨0, 9⟩) ⟨10, 19⟩ = [⟨0, 19⟩] := by
  constructor
  · intro l vma hl hv
    exact ariInv_iff_invariantL.2 (insert1_invariant (ariInv_iff_invariantL.1 hl) hv)
  · decide

/-- Closed instance of claim C3's theorem: the invariant holds after inserting
[10,19] into the index holding [0,9]. -/
theorem claim_C3_witness :
    ARIInv (insert1 [⟨0, 9⟩] ⟨10, 19⟩) := by
  apply claim_C3_invariant.1 [⟨0, 9⟩] ⟨10, 19⟩
  · constructor
    · simp
    · intro r hr
      simp at hr
      subst hr
      show (0 : Nat) ≤ 9
      omega
  · show (10 : Nat) ≤ 19
    omega

/-- C6: on an index satisfying the Address Range Index invariant,
coordinate_of maps an address inside range r (with the ranges below r listed
in l₁) to the sum of the sizes of the ranges below plus the offset of the
address inside r; it is strictly monotonic on covered addresses (hence within
each range), and it is a bijection from the covered addresses onto the
half-open interval [0, total_size). -/
theorem claim_C6_coordinate (l : List SRange) (hl : InvariantL l) :
    (∀ (l₁ l₂ : List SRange) (r : SRange) (addr : Nat), l = l₁ ++ r :: l₂ →
      memR addr r → coordinate_of l addr = total_size l₁ + (addr - r.lower)) ∧
    (∀ r ∈ l, ∀ a₁ a₂ : Nat, memR a₁ r → memR a₂ r → a₁ < a₂ →
      coordinate_of l a₁ < coordinate_of l a₂) ∧
    (∀ a : Nat, memL a l → coordinate_of l a < total_size l) ∧
    (∀ a₁ a₂ : Nat, memL a₁ l → memL a₂ l →
      coordinate_of l a₁ = coordinate_of l a₂ → a₁ = a₂) ∧
    (∀ c : Nat, c < total_size l → ∃ a, memL a l ∧ coordinate_of l a = c) := by
  refine ⟨?_, ?_, ?_, ?_, ?_⟩
  · intro l₁ l₂ r addr hsplit hmem
    subst hsplit
    exact coordinate_split hl.1 hmem
  · intro r hr a₁ a₂ h₁ h₂ h12
    exact coordinate_strictMono hl ⟨r, hr, h₁⟩ ⟨r, hr, h₂⟩ h12
  · intro a ha
    exact coordinate_lt_total hl ha
  · intro a₁ a₂ h₁ h₂ heq
    rcases Nat.lt_trichotomy a₁ a₂ with h | h | h
    · exact absurd heq (Nat.ne_of_lt (coordinate_strictMono hl h₁ h₂ h))
    · exact h
    · exact absurd heq.symm (Nat.ne_of_lt (coordinate_strictMono hl h₂ h₁ h))
  · intro c hc
    exact coordinate_surj hl hc

/-- Closed instance of claim C6's theorem on the index [[0,1],[5,6]] at
address 6: the coordinate is the size of [0,1] plus the offset inside [5,6]. -/
theorem claim_C6_witness :
    coordinate_of [⟨0, 1⟩, ⟨5, 6⟩] 6 = total_size [⟨0, 1⟩] + (6 - 5) := by
  apply (claim_C6_coordinate [⟨0, 1⟩, ⟨5, 6⟩] ?_).1 [⟨0, 1⟩] [] ⟨5, 6⟩ 6 rfl
  · exact memR_mk.2 (by omega)
  · constructor
    · simp
      show Sep ⟨0, 1⟩ ⟨5, 6⟩
      show (1 : Nat) + 1 < 5
      omega
    · intro r hr
      simp at hr
      rcases hr with h | h <;> subst h
      · show (0 : Nat) ≤ 1; omega
      · show (5 : Nat) ≤ 6; omega

end SmogTrace

namespace SmogTrace

theorem indexLoop_mem {buf : List Nat} :
    ∀ (fuel index : Nat) (acc offs : List Nat),
      (∀ o ∈ acc, o < buf.length) → indexLoop buf fuel index acc = some offs →
      ∀ o ∈ offs, o < buf.length := by
  intro fuel
  induction fuel with
  | zero =>
    intro index acc offs hacc h
    unfold indexLoop at h
    split at h
    · exact absurd h (by simp)
    · simp at h
      exact h ▸ hacc
  | succ fuel ih =>
    intro index acc offs hacc h
    unfold indexLoop at h
    split at h
    · rename_i hidx
      rcases Option.bind_eq_some.1 h with ⟨next, hnext, h'⟩
      apply ih next (acc ++ [index]) offs _ h'
      intro o ho
      rcases List.mem_append.1 ho with ho' | ho'
      · exact hacc o ho'
      · simp at ho'
        exact ho' ▸ hidx
    · simp at h
      exact h ▸ hacc

theorem readByte_lt {buf : List Nat} {i b : Nat} (h : readByte buf i = some b) :
    b < 256 := by
  unfold readByte at h
  rcases Option.map_eq_some'.1 h with ⟨x, _, hx⟩
  subst hx
  exact Nat.mod_lt _ (by omega)

theorem readU32_lt {buf : List Nat} {i x : Nat} (h : readU32 buf i = some x) :
    x < 2 ^ 32 := by
  unfold readU32 at h
  rcases Option.bind_eq_some.1 h with ⟨a, ha, h⟩
  rcases Option.bind_eq_some.1 h with ⟨b, hb, h⟩
  rcases Option.bind_eq_some.1 h with ⟨c, hc, h⟩
  rcases Option.bind_eq_some.1 h with ⟨d, hd, h⟩
  simp at h
  have := readByte_lt ha
  have := readByte_lt hb
  have := readByte_lt hc
  have := readByte_lt hd
  omega

theorem readU64_lt {buf : List Nat} {i x : Nat} (h : readU64 buf i = some x) :
    x < W := by
  unfold readU64 at h
  rcases Option.bind_eq_some.1 h with ⟨lo, hlo, h⟩
  rcases Option.bind_eq_some.1 h with ⟨hi, hhi, h⟩
  simp at h
  have h1 := readU32_lt hlo
  have h2 := readU32_lt hhi
  unfold W
  omega

theorem readBytes_length {buf : List Nat} :
    ∀ (len i : Nat) (bs : List Nat), readBytes buf i len = some bs → bs.length = len := by
  intro len
  induction len with
  | zero =>
    intro i bs h
    simp [readBytes] at h
    simp [← h]
  | succ len ih =>
    intro i bs h
    unfold readBytes at h
    rcases Option.bind_eq_some.1 h with ⟨b, _, h⟩
    rcases Option.bind_eq_some.1 h with ⟨rest, hrest, h⟩
    simp at h
    subst h
    simp [ih _ _ hrest]

theorem decodeVmas_spec {buf : List Nat} :
    ∀ (k i : Nat) (vs : List Vma) (fin : Nat),
      decodeVmas buf i k = some (vs, fin) →
      fin = i + (vs.map vmaBytes).sum ∧ vs.length = k ∧
      ∀ v ∈ vs, v.start < W ∧ v.stop < W := by
  intro k
  induction k with
  | zero =>
    intro i vs fin h
    simp [decodeVmas] at h
    rcases h with ⟨h1, h2⟩
    subst h1
    subst h2
    simp
  | succ k ih =>
    intro i vs fin h
    unfold decodeVmas at h
    rcases Option.bind_eq_some.1 h with ⟨start, hstart, h⟩
    rcases Option.bind_eq_some.1 h with ⟨stop, hstop, h⟩
    rcases Option.bind_eq_some.1 h with ⟨len, hlen, h⟩
    rcases Option.bind_eq_some.1 h with ⟨name, hname, h⟩
    rcases Option.bind_eq_some.1 h with ⟨words, hwords, h⟩
    rcases Option.bind_eq_some.1 h with ⟨pr, hpr, h⟩
    rcases pr with ⟨rest, fin'⟩
    simp at h
    rcases h with ⟨hvs, hfin⟩
    subst hvs
    subst hfin
    rcases ih _ _ _ hpr with ⟨hfin', hlen', hlt'⟩
    refine ⟨?_, by simp [hlen'], ?_⟩
    · rw [hfin']
      have hn : name.length = len := readBytes_length _ _ _ hname
      simp [vmaBytes, vpages, hn]
      omega
    · intro v hv
      rcases List.mem_cons.1 hv with h' | h'
      · subst h'
        exact ⟨readU64_lt hstart, readU64_lt hstop⟩
      · exact hlt' v h'

theorem decodeFrame_spec {buf : List Nat} {off : Nat} {f : Frame} {fin : Nat}
    (h : decodeFrame buf off = some (f, fin)) :
    fin = off + 12 + (f.vmas.map vmaBytes).sum ∧
    ∀ v ∈ f.vmas, v.start < W ∧ v.stop < W := by
  unfold decodeFrame at h
  rcases Option.bind_eq_some.1 h with ⟨sec, hsec, h⟩
  rcases Option.bind_eq_some.1 h with ⟨usec, husec, h⟩
  rcases Option.bind_eq_some.1 h with ⟨n, hn, h⟩
  rcases Option.bind_eq_some.1 h with ⟨pr, hpr, h⟩
  rcases pr with ⟨vmas, fin'⟩
  simp at h
  rcases h with ⟨hf, hfin⟩
  subst hfin
  rcases decodeVmas_spec _ _ _ _ hpr with ⟨hfin', _, hlt⟩
  subst hf
  exact ⟨by simp [hfin'], hlt⟩

theorem vpages_derived {v : Vma} (h2 : v.stop < W)
    (h : v.start ≤ v.stop) : vpages v = v.stop - v.start := by
  unfold vpages
  have : v.stop + W - v.start = W + (v.stop - v.start) := by omega
  rw [this]
  rw [Nat.add_mod_left]
  exact Nat.mod_eq_of_lt (by omega)

end SmogTrace
namespace SmogTrace

/-- C1 counterexample: tracefile_index_frames does not fail on a buffer
truncated mid-frame.  The 33-byte buffer buf33 is a truncation of a 36-byte
frame, yet indexing returns successfully with the partial frame indexed; and
on the 9-byte buffer buf9 the indexer reads past the buffer end (modelled by
none), rather than reporting an error. -/
theorem claim_C1_counterexample :
    tracefile_index_frames buf33 = some [0] ∧
    frameAdvance buf33 0 = some 36 ∧ buf33.length = 33 ∧
    tracefile_index_frames buf9 = none := by
  refine ⟨by decide, by decide, by decide, by decide⟩

/-- C1 amended: tracefile_index_frames performs no truncation check.  Every
offset it records is below the buffer length, but a buffer truncated
mid-frame is either silently indexed with the final frame extending past the
buffer end (buf33: frame needs 36 of 33 bytes) or causes a read past the
buffer end (buf9), and no error value distinct from the out-of-bounds read
itself is ever produced. -/
theorem claim_C1_amended :
    (∀ (buf offs : List Nat), tracefile_index_frames buf = some offs →
      ∀ o ∈ offs, o < buf.length) ∧
    (tracefile_index_frames buf33 = some [0] ∧
      frameAdvance buf33 0 = some 36 ∧ buf33.length < 36) ∧
    tracefile_index_frames buf9 = none := by
  refine ⟨?_, ⟨by decide, by decide, by decide⟩, by decide⟩
  intro buf offs h o ho
  exact indexLoop_mem _ 0 [] offs (by simp) h o ho

/-- Closed instance of claim C1's amended theorem: the offset recorded for
buf33 lies inside the buffer. -/
theorem claim_C1_witness : 0 < buf33.length :=
  claim_C1_amended.1 buf33 [0] (by decide) 0 (by decide)

/-- C4 counterexample: the frame indexer does not consume the canonical
name-bearing layout.  On the canonical 40-byte frame cbuf40 the backend
decoder finishes at offset 40, while tracefile_index_frames advances only 36
bytes: it reads the name-length position as an explicit page count and skips
no name bytes. -/
theorem claim_C4_counterexample :
    (decodeFrame cbuf40 0).map (fun p => p.2) = some 40 ∧
    frameAdvance cbuf40 0 = some 36 := by
  exact ⟨by decide, by decide⟩

/-- C4 amended: the backend decoder of the canonical layout consumes per VMA
exactly 8-byte start, 8-byte end, a 4-byte name length L, L name bytes, and
`wordCount64 (end - start)` 4-byte bitmap words, with the page count derived
as end - start (never read from an explicit field), and its cursor lands
immediately after the last VMA; the frame indexer (tracefile_index_frames)
instead consumes an explicit 4-byte page-count field and no name bytes. -/
theorem claim_C4_amended :
    (∀ (buf : List Nat) (off : Nat) (f : Frame) (fin : Nat),
      decodeFrame buf off = some (f, fin) →
      fin = off + 12 +
        (f.vmas.map (fun v => 20 + v.name.length + 4 * wordCount64 (vpages v))).sum ∧
      ∀ v ∈ f.vmas, v.start ≤ v.stop → vpages v = v.stop - v.start) ∧
    ((decodeFrame cbuf40 0).map (fun p => p.2) = some 40 ∧
      frameAdvance cbuf40 0 = some 36) := by
  constructor
  · intro buf off f fin h
    rcases decodeFrame_spec h with ⟨hfin, hlt⟩
    constructor
    · exact hfin
    · intro v hv hle
      exact vpages_derived (hlt v hv).2 hle
  · exact ⟨by decide, by decide⟩

/-- Closed instance of claim C4's amended theorem at the concrete canonical
frame cbuf40: the decoder's final cursor is 40 = 12 + 20 + 4 + 4, and the
derived page count of its VMA is 2. -/
theorem claim_C4_witness :
    40 = 0 + 12 +
      ((⟨0, 0, [⟨0, 2, [97, 98, 99, 0], [0]⟩]⟩ : Frame).vmas.map
        (fun v => 20 + v.name.length + 4 * wordCount64 (vpages v))).sum ∧
    ∀ v ∈ (⟨0, 0, [⟨0, 2, [97, 98, 99, 0], [0]⟩]⟩ : Frame).vmas,
      v.start ≤ v.stop → vpages v = v.stop - v.start :=
  claim_C4_amended.1 cbuf40 0 ⟨0, 0, [⟨0, 2, [97, 98, 99, 0], [0]⟩]⟩ 40 (by decide)

end SmogTrace
namespace SmogTrace

theorem and_three_eq_mod {x : Nat} : x &&& 3 = x % 4 := by
  have h := Nat.and_pow_two_sub_one_eq_mod x 2
  norm_num at h
  exact h

theorem page_state_div {words : List Nat} {p : Nat} :
    page_state words p = (words.getD (p / 16) 0 / 4 ^ (p % 16)) % 4 := by
  unfold page_state
  rw [and_three_eq_mod, Nat.shiftRight_eq_div_pow]
  congr 1
  rw [Nat.mul_comm, Nat.pow_mul]

theorem packWord_digit :
    ∀ (chunk : List Nat) (p : Nat), (∀ s ∈ chunk, s < 4) → p < chunk.length →
      (packWord chunk / 4 ^ p) % 4 = chunk.getD p 0 := by
  intro chunk
  induction chunk with
  | nil => intro p _ hp; simp at hp
  | cons s rest ih =>
    intro p hs hp
    match p with
    | 0 =>
      simp only [packWord, List.foldr_cons, pow_zero, Nat.div_one, List.getD_cons_zero]
      have h4 : s % 4 = s := Nat.mod_eq_of_lt (hs s (by simp))
      conv_rhs => rw [← h4]
      omega
    | p + 1 =>
      have hdiv : packWord (s :: rest) / 4 = packWord rest := by
        simp only [packWord, List.foldr_cons]
        have h4 : s % 4 < 4 := Nat.mod_lt _ (by omega)
        omega
      rw [List.getD_cons_succ]
      rw [pow_succ']
      rw [← Nat.div_div_eq_div_mul]
      rw [hdiv]
      apply ih
      · intro x hx; exact hs x (by simp [hx])
      · simp at hp; omega

theorem page_state_cons_ge {w : Nat} {ws : List Nat} {p : Nat} (h : 16 ≤ p) :
    page_state (w :: ws) p = page_state ws (p - 16) := by
  rw [page_state_div, page_state_div]
  have h1 : p / 16 = (p - 16) / 16 + 1 := by omega
  have h2 : p % 16 = (p - 16) % 16 := by omega
  rw [h1, h2, List.getD_cons_succ]

theorem page_state_pack_aux :
    ∀ (n : Nat) (states : List Nat) (p : Nat), states.length ≤ 16 * n →
      (∀ s ∈ states, s < 4) → p < states.length →
      page_state (packStatesAux n states) p = states.getD p 0 := by
  intro n
  induction n with
  | zero => intro states p hlen _ hp; omega
  | succ n ih =>
    intro states p hlen hs hp
    match states with
    | [] => simp at hp
    | s :: rest =>
      unfold packStatesAux
      by_cases h16 : p < 16
      · rw [page_state_div]
        have hdv : p / 16 = 0 := by omega
        have hmd : p % 16 = p := by omega
        rw [hdv, hmd, List.getD_cons_zero]
        rw [packWord_digit _ p]
        · rw [List.getD_eq_getElem?_getD, List.getD_eq_getElem?_getD,
            List.getElem?_take_of_lt h16]
        · intro x hx
          exact hs x (List.mem_of_mem_take hx)
        · rw [List.length_take]
          omega
      · push_neg at h16
        rw [page_state_cons_ge h16]
        rw [ih ((s :: rest).drop 16) (p - 16)]
        · rw [List.getD_eq_getElem?_getD, List.getD_eq_getElem?_getD]
          rw [List.getElem?_drop]
          have hidx : 16 + (p - 16) = p := by omega
          rw [hidx]
        all_goals first
          | (intro x hx
             exact hs x (List.mem_of_mem_drop hx))
          | (simp only [List.length_drop, List.length_cons] at hlen hp ⊢
             omega)

theorem page_state_pack {states : List Nat} {p : Nat}
    (hs : ∀ s ∈ states, s < 4) (hp : p < states.length) :
    page_state (packStates states) p = states.getD p 0 := by
  unfold packStates
  apply page_state_pack_aux _ _ _ _ hs hp
  omega

end SmogTrace
namespace SmogTrace

/-- C5: page_state extracts the packed 2-bit state exactly as
`(bitmap_words[p / 16] >> ((p % 16) * 2)) & 0b11`, sixteen pages per 32-bit
word packed low-to-high; packing any list of 2-bit states and decoding any
in-range page recovers the exact value, in particular at page indices
0, 15, 16, 31 (crossing the word boundary at page 16) with states 0-3. -/
theorem claim_C5_page_state :
    (∀ (w : List Nat) (p : Nat),
      page_state w p = ((w.getD (p / 16) 0) >>> ((p % 16) * 2)) &&& 3) ∧
    (∀ (states : List Nat) (p : Nat), (∀ s ∈ states, s < 4) → p < states.length →
      page_state (packStates states) p = states.getD p 0) ∧
    (page_state (packStates statesC5) 0 = 0 ∧ page_state (packStates statesC5) 15 = 1 ∧
     page_state (packStates statesC5) 16 = 2 ∧ page_state (packStates statesC5) 31 = 3) := by
  refine ⟨fun w p => rfl, fun states p hs hp => page_state_pack hs hp, ?_, ?_, ?_, ?_⟩
  all_goals decide

/-- Closed instance of claim C5's theorem: decoding page 16 of the packed
statesC5 recovers state 2. -/
theorem claim_C5_witness :
    page_state (packStates statesC5) 16 = statesC5.getD 16 0 :=
  claim_C5_page_state.2.1 statesC5 16 (by decide) (by decide)

end SmogTrace
namespace SmogTrace

/-- C7: the Bitmap sink colors each page exactly as state 0 -> (0,0,255),
1 -> (0,255,255), 2 -> (0,255,0), 3 -> (255,0,0); rendering one frame with
one 2-page VMA [100,102) with states [1,3] against the index [[100,101]]
yields the 1-row 2-pixel image with pixel 0 cyan and pixel 1 red. -/
theorem claim_C7_bitmap_colors :
    pixel_color 0 = (0, 0, 255) ∧ pixel_color 1 = (0, 255, 255) ∧
    pixel_color 2 = (0, 255, 0) ∧ pixel_color 3 = (255, 0, 0) ∧
    write_frame_png [⟨100, 101⟩] 2 bufC7 = some [0, 255, 255, 255, 0, 0] := by
  refine ⟨by decide, by decide, by decide, by decide, by decide⟩

/-- C8: evaluation of the Tabular (parquet) row production at a concrete
frame whose single page carries the 2-bit state 2.  The claim expects the
row (5, true, false) (is_present = state >= 1, is_dirty = state >= 3); the
code instead reads single bytes from the frame base (buffer[j/16], never the
bitmap words) and takes bit 0 / bit 1 of the pair, producing (5, false,
true). -/
theorem claim_C8_parquet_bug :
    parquetRows cbufP = some [(5, false, true)] ∧
    page_state [2] 0 = 2 ∧
    ((5 : Nat), false, true) ≠ ((5 : Nat), true, false) := by
  refine ⟨by decide, by decide, by decide⟩

/-- C10 counterexample: although a (start 0, end 0) record is skipped, the
aggregated index can still contain a range spanning the whole address space:
a frame with records (start 5, end 0) and (start 0, end 5) coalesces to
[0, 2^64 - 1], both via the per-VMA update and via the byte-level
aggregation pass of backend_png_frames. -/
theorem claim_C10_counterexample :
    aggInsertVma (aggInsertVma [] 5 0) 0 5 = [⟨0, W - 1⟩] ∧
    aggVmasPng cbufC10 12 [] 2 = some [⟨0, W - 1⟩] := by
  refine ⟨by decide, by decide⟩

/-- C10 amended: a VMA record with start 0 and exclusive end 0 (derived
inclusive range [0, 2^64 - 1]) is never inserted by the range-aggregation
passes of the per-frame PNG and Histogram backends — the per-VMA update
leaves the index unchanged, and the byte-level pass of backend_png_frames
leaves any index unchanged over such a record; the index may however still
come to span the whole address space through other records with end 0. -/
theorem claim_C10_amended :
    (∀ l : List SRange, aggInsertVma l 0 0 = l) ∧
    (∀ l : List SRange, aggVmasPng skipbufC10 12 l 1 = some l) := by
  exact ⟨fun _ => rfl, fun _ => rfl⟩

end SmogTrace
namespace SmogTrace

theorem foldl_histIncr (obs : List HistObs) (h : Hist) (name : List Nat) (pos : Nat) :
    (obs.foldl histIncr h) name pos =
      ⟨(h name pos).committed + obs.countP (obsAbove name pos 0),
       (h name pos).accessed + obs.countP (obsAbove name pos 1),
       (h name pos).dirty + obs.countP (obsAbove name pos 2)⟩ := by
  induction obs generalizing h with
  | nil =>
    simp [List.countP_nil]
  | cons o rest ih =>
    rw [List.foldl_cons, ih]
    rw [List.countP_cons, List.countP_cons, List.countP_cons]
    unfold histIncr obsAbove obsMatch
    by_cases hm : o.name = name ∧ o.pos = pos
    · rw [if_pos hm]
      simp only [hm.1, hm.2, decide_True, Bool.true_and]
      by_cases h0 : o.value > 0
      · by_cases h1 : o.value > 1
        · by_cases h2 : o.value > 2
          · simp [h0, h1, h2] <;> omega
          · simp [h0, h1, h2] <;> omega
        · have h2 : ¬ (o.value > 2) := by omega
          simp [h0, h1, h2] <;> omega
      · have h1 : ¬ (o.value > 1) := by omega
        have h2 : ¬ (o.value > 2) := by omega
        simp [h0, h1, h2] <;> omega
    · rw [if_neg hm]
      have hd : decide (o.name = name ∧ o.pos = pos) = false := by
        simp only [decide_eq_false_iff_not]
        exact hm
      simp [hd]

theorem histTrace_fold {ranges : List Nat → List SRange} :
    ∀ (bufs : List (List Nat)) (h : Hist) (obss : List (List HistObs)),
      bufs.mapM (frameObs ranges) = some obss →
      histTrace ranges h bufs =
        some (obss.foldl (fun acc obs => obs.foldl histIncr acc) h) := by
  intro bufs
  induction bufs with
  | nil =>
    intro h obss hm
    rw [List.mapM_nil] at hm
    obtain rfl := Option.some.inj hm
    simp [histTrace]
  | cons buf bufs ih =>
    intro h obss hm
    rw [List.mapM_cons] at hm
    rcases Option.bind_eq_some.1 hm with ⟨obs, hobs, hm'⟩
    rcases Option.bind_eq_some.1 hm' with ⟨obss', hobss, hm''⟩
    simp at hm''
    subst hm''
    unfold histTrace
    rw [show histFrame ranges h buf = some (obs.foldl histIncr h) by
      unfold histFrame; rw [hobs]; rfl]
    rw [List.foldl_cons]
    exact ih (obs.foldl histIncr h) obss' hobss

theorem foldl_frames_counts :
    ∀ (obss : List (List HistObs)) (h : Hist) (name : List Nat) (pos : Nat),
      (obss.foldl (fun acc obs => obs.foldl histIncr acc) h) name pos =
        ⟨(h name pos).committed + (obss.map (List.countP (obsAbove name pos 0))).sum,
         (h name pos).accessed + (obss.map (List.countP (obsAbove name pos 1))).sum,
         (h name pos).dirty + (obss.map (List.countP (obsAbove name pos 2))).sum⟩ := by
  intro obss
  induction obss with
  | nil => intro h name pos; simp
  | cons obs obss ih =>
    intro h name pos
    rw [List.foldl_cons, ih]
    rw [foldl_histIncr]
    simp
    omega

theorem countP_good_of_unique {obs : List HistObs} {name : List Nat} {pos k : Nat}
    (hu : obs.countP (obsMatch name pos) ≤ 1) :
    obs.countP (obsAbove name pos k) =
      if obs.any (obsAbove name pos k) then 1 else 0 := by
  have hmono : obs.countP (obsAbove name pos k) ≤ obs.countP (obsMatch name pos) := by
    apply List.countP_mono_left
    intro x _ hx
    unfold obsAbove at hx
    rw [Bool.and_eq_true] at hx
    exact hx.1
  by_cases ha : obs.any (obsAbove name pos k) = true
  · rw [if_pos ha]
    rcases List.any_eq_true.1 ha with ⟨o, ho, hgood⟩
    have hpos : 0 < obs.countP (obsAbove name pos k) :=
      List.countP_pos_iff.2 ⟨o, ho, hgood⟩
    omega
  · rw [if_neg ha]
    rw [List.countP_eq_zero]
    intro o ho hgood
    exact ha (List.any_eq_true.2 ⟨o, ho, hgood⟩)

theorem sum_counts_of_unique {name : List Nat} {pos k : Nat} :
    ∀ (obss : List (List HistObs)),
      (∀ obs ∈ obss, obs.countP (obsMatch name pos) ≤ 1) →
      (obss.map (List.countP (obsAbove name pos k))).sum =
        obss.countP (fun obs => obs.any (obsAbove name pos k)) := by
  intro obss
  induction obss with
  | nil => intro _; simp
  | cons obs obss ih =>
    intro hu
    rw [List.map_cons, List.sum_cons, List.countP_cons]
    rw [ih (fun x hx => hu x (List.mem_cons_of_mem _ hx))]
    rw [countP_good_of_unique (hu obs (by simp))]
    omega

end SmogTrace
namespace SmogTrace

/-- C9: after processing all frames, the Histogram counters at a region name
and page position equal, over all frames, the number of frames observing
that position with state above 0 / 1 / 2 respectively (provided each frame
observes the position at most once, as when VMAs do not overlap); three
frames where the page has states 0, 2, 3 yield committed 2, accessed 2,
dirty 1. -/
theorem claim_C9_histogram :
    (∀ (ranges : List Nat → List SRange) (bufs : List (List Nat))
       (obss : List (List HistObs)) (name : List Nat) (pos : Nat) (h' : Hist),
      bufs.mapM (frameObs ranges) = some obss →
      histTrace ranges hist0 bufs = some h' →
      (∀ obs ∈ obss, obs.countP (obsMatch name pos) ≤ 1) →
      h' name pos =
        ⟨obss.countP (fun obs => obs.any (obsAbove name pos 0)),
         obss.countP (fun obs => obs.any (obsAbove name pos 1)),
         obss.countP (fun obs => obs.any (obsAbove name pos 2))⟩) ∧
    ((histTrace rangesC9 hist0 [fbufC9 0, fbufC9 2, fbufC9 3]).map
      (fun h => h [65] 0) = some ⟨2, 2, 1⟩) := by
  constructor
  · intro ranges bufs obss name pos h' hm ht hu
    rw [histTrace_fold bufs hist0 obss hm] at ht
    obtain rfl := Option.some.inj ht
    rw [foldl_frames_counts]
    rw [sum_counts_of_unique obss hu, sum_counts_of_unique obss hu,
      sum_counts_of_unique obss hu]
    simp [hist0]
  · decide

/-- Closed instance of claim C9's theorem at the concrete three-frame
scenario with states 0, 2, 3 at one page of region [65]. -/
theorem claim_C9_witness :
    ∃ h' : Hist, histTrace rangesC9 hist0 [fbufC9 0, fbufC9 2, fbufC9 3] = some h' ∧
      h' [65] 0 = ⟨2, 2, 1⟩ := by
  have hm : ([fbufC9 0, fbufC9 2, fbufC9 3]).mapM (frameObs rangesC9) =
      some [[⟨[65], 0, 0⟩], [⟨[65], 0, 2⟩], [⟨[65], 0, 3⟩]] := by decide
  have ht : ∃ h', histTrace rangesC9 hist0 [fbufC9 0, fbufC9 2, fbufC9 3] = some h' := by
    rw [histTrace_fold _ hist0 _ hm]
    exact ⟨_, rfl⟩
  rcases ht with ⟨h', ht⟩
  refine ⟨h', ht, ?_⟩
  have := claim_C9_histogram.1 rangesC9 [fbufC9 0, fbufC9 2, fbufC9 3]
    [[⟨[65], 0, 0⟩], [⟨[65], 0, 2⟩], [⟨[65], 0, 3⟩]] [65] 0 h' hm ht (by decide)
  rw [this]
  decide

end SmogTrace
